import Mathlib

/-!
Verification of the BVH core (`src/bvh.rs`).

A shallow embedding of the `BVH` construction and traversal algorithms of
`src/bvh.rs`.  Rust `f32` arithmetic is idealised as exact rational
arithmetic (`ℚ`); `usize` becomes `ℕ`; `Vec` becomes `List`.  The external
collaborators that live outside `src/` (the `AABB` primitive, the `Ray`
slab test, the `EPSILON` constant and the `Bounded` capability) are
modelled from the spec, as marked on each definition.
-/

namespace Bvh

/-- Modelled from the spec: the AABB primitive (external to `src/`) exposes
`largestAxis() -> one of {X,Y,Z}` and axis-indexed `min[axis]`/`max[axis]`. -/
inductive Axis where
  | X
  | Y
  | Z
  deriving DecidableEq, Fintype

/-- A 3-dimensional point with rational coordinates (idealised `f32`). -/
structure Point3 where
  x : ℚ
  y : ℚ
  z : ℚ
  deriving DecidableEq

/-- Coordinate of a point on a given axis (the source's `point[axis]`). -/
def Point3.nth (p : Point3) : Axis → ℚ
  | Axis.X => p.x
  | Axis.Y => p.y
  | Axis.Z => p.z

/-- Componentwise minimum of two points. -/
def Point3.pmin (p q : Point3) : Point3 :=
  ⟨min p.x q.x, min p.y q.y, min p.z q.z⟩

/-- Componentwise maximum of two points. -/
def Point3.pmax (p q : Point3) : Point3 :=
  ⟨max p.x q.x, max p.y q.y, max p.z q.z⟩

/-- Modelled from the spec: an axis-aligned bounding box given by its two
corner points (`aabb.rs` is not part of `src/`). -/
structure AABB where
  min : Point3
  max : Point3
  deriving DecidableEq

/-- Modelled from the spec: `join(other) -> AABB` is the union (convex hull)
of two boxes, componentwise min of minima and max of maxima. -/
def AABB.join (a b : AABB) : AABB :=
  ⟨Point3.pmin a.min b.min, Point3.pmax a.max b.max⟩

/-- Modelled from the spec: `grow(point)` is the union with a degenerate
point-box. -/
def AABB.grow (a : AABB) (p : Point3) : AABB :=
  ⟨Point3.pmin a.min p, Point3.pmax a.max p⟩

/-- Modelled from the spec: `center()` is the center point of the box. -/
def AABB.center (a : AABB) : Point3 :=
  ⟨(a.min.x + a.max.x) / 2, (a.min.y + a.max.y) / 2, (a.min.z + a.max.z) / 2⟩

/-- Modelled from the spec: `surfaceArea()` of a box with side lengths
`sx, sy, sz` is `2*(sx*sy + sx*sz + sy*sz)`. -/
def AABB.surface_area (a : AABB) : ℚ :=
  let sx := a.max.x - a.min.x
  let sy := a.max.y - a.min.y
  let sz := a.max.z - a.min.z
  2 * (sx * sy + sx * sz + sy * sz)

/-- Modelled from the spec: `largestAxis()` is the axis on which the box has
the largest extent (ties resolved towards the earlier axis). -/
def AABB.largest_axis (a : AABB) : Axis :=
  let sx := a.max.x - a.min.x
  let sy := a.max.y - a.min.y
  let sz := a.max.z - a.min.z
  if sy ≤ sx ∧ sz ≤ sx then Axis.X
  else if sz ≤ sy then Axis.Y
  else Axis.Z

/-- A possibly-empty AABB.  `none` models the source's `AABB::empty()`, the
identity element for `join` (the spec requires `empty()` to be an identity;
`f32` realises it with infinite bounds, which `ℚ` lacks). -/
abbrev EAABB := Option AABB

/-- Union of two possibly-empty boxes; `none` is the identity. -/
def EAABB.join : EAABB → EAABB → EAABB
  | none, b => b
  | some a, none => some a
  | some a, some b => some (AABB.join a b)

/-- Union of a possibly-empty box with a (non-empty) box. -/
def EAABB.join_box : EAABB → AABB → EAABB
  | none, b => some b
  | some a, b => some (AABB.join a b)

/-- Growing a possibly-empty box by a point. -/
def EAABB.grow : EAABB → Point3 → EAABB
  | none, p => some ⟨p, p⟩
  | some a, p => some (AABB.grow a p)

/-- Surface area of a possibly-empty box.  The `none` case is unreachable in
the algorithm (every box whose area is taken bounds at least one shape); `0`
is an arbitrary total default. -/
def EAABB.surface_area : EAABB → ℚ
  | none => 0
  | some a => a.surface_area

/-- Largest axis of a possibly-empty box (`none` case unreachable). -/
def EAABB.largest_axis : EAABB → Axis
  | none => Axis.X
  | some a => a.largest_axis

/-- Extent of a possibly-empty box along an axis (`none` case unreachable). -/
def EAABB.size_on : EAABB → Axis → ℚ
  | none, _ => 0
  | some a, ax => a.max.nth ax - a.min.nth ax

/-- Lower bound of a possibly-empty box along an axis (`none` unreachable). -/
def EAABB.min_on : EAABB → Axis → ℚ
  | none, _ => 0
  | some a, ax => a.min.nth ax

/-- The relation `contains_box e b` states that the possibly-empty box `e` contains the
box `b` (componentwise bound inclusion). -/
def EAABB.contains_box : EAABB → AABB → Prop
  | none, _ => False
  | some big, b => ∀ ax, big.min.nth ax ≤ b.min.nth ax ∧ b.max.nth ax ≤ big.max.nth ax

/-- Modelled from the spec: the crate-level constant `EPSILON` (defined in
`lib.rs`, outside `src/`), "a small fixed threshold"; the crate uses
`0.00001`. -/
def EPSILON : ℚ := 1 / 100000

/-- Modelled from the spec: a ray with an origin and a direction
(`ray.rs` is not part of `src/`). -/
structure Ray where
  origin : Point3
  direction : Point3
  deriving DecidableEq

/-- State of the slab test: the current feasible parameter interval
`[tlo, thi]` (with `thi = none` meaning unbounded above) together with a
flag recording whether a zero-direction axis check has failed. -/
structure SlabState where
  tlo : ℚ
  thi : Option ℚ
  ok : Bool
  deriving DecidableEq

/-- One axis of the slab test: intersect the feasible parameter interval
with the slab `lo ≤ o + t * d ≤ hi`. -/
def slab_axis (o d lo hi : ℚ) (st : SlabState) : SlabState :=
  if d = 0 then
    ⟨st.tlo, st.thi, st.ok && decide (lo ≤ o ∧ o ≤ hi)⟩
  else
    let t1 := (lo - o) / d
    let t2 := (hi - o) / d
    let a := min t1 t2
    let b := max t1 t2
    ⟨max st.tlo a,
     some (match st.thi with
           | none => b
           | some h => min h b),
     st.ok⟩

/-- Whether the accumulated slab state still admits a parameter value. -/
def slab_feasible (st : SlabState) : Bool :=
  st.ok && (match st.thi with
            | none => true
            | some h => decide (st.tlo ≤ h))

/-- Modelled from the spec: `intersectsAABB(box)` is the "slab/parametric
test against an axis-aligned box": the ray `origin + t * direction`,
`t ≥ 0`, meets the box iff the per-axis parameter intervals and `[0, ∞)`
have a common point. -/
def Ray.intersects_aabb (r : Ray) (b : AABB) : Bool :=
  let s0 : SlabState := ⟨0, none, true⟩
  let s1 := slab_axis r.origin.x r.direction.x b.min.x b.max.x s0
  let s2 := slab_axis r.origin.y r.direction.y b.min.y b.max.y s1
  let s3 := slab_axis r.origin.z r.direction.z b.min.z b.max.z s2
  slab_feasible s3

/-- Slab test against a possibly-empty box; an empty box is never hit. -/
def Ray.intersects_eaabb (r : Ray) : EAABB → Bool
  | none => false
  | some b => r.intersects_aabb b

/-- The bounding box of the shape with index `i`.  Shapes are represented by
their AABBs (the source's `Bounded` capability exposes only `aabb()`); an
out-of-range index yields a degenerate default (the source would panic
there; all reachable lookups are in bounds). -/
def shape_aabb (shapes : List AABB) (i : ℕ) : AABB :=
  shapes.getD i ⟨⟨0, 0, 0⟩, ⟨0, 0, 0⟩⟩

/-- The `Bucket` utility of `BVHNode::build`: a shape count and a union
AABB. -/
structure Bucket where
  size : ℕ
  aabb : EAABB
  deriving DecidableEq

/-- The source's `Bucket::empty()`. -/
def Bucket.empty : Bucket := ⟨0, none⟩

/-- The source's `Bucket::add_aabb`: count one more shape and join its box. -/
def Bucket.add_aabb (b : Bucket) (box : AABB) : Bucket :=
  ⟨b.size + 1, EAABB.join_box b.aabb box⟩

/-- The source's `join_bucket`: sizes add, boxes join. -/
def join_bucket (a b : Bucket) : Bucket :=
  ⟨a.size + b.size, EAABB.join a.aabb b.aabb⟩

/-- The source's `grow_convex_hull`: extend the running pair (union of shape AABBs,
union of shape centroids) by one shape's AABB. -/
def grow_convex_hull (ch : EAABB × EAABB) (shape_box : AABB) : EAABB × EAABB :=
  (EAABB.join_box ch.1 shape_box, EAABB.grow ch.2 shape_box.center)

/-- The convex-hull accumulation loop of `BVHNode::build`: fold
`grow_convex_hull` over the indices, starting from the empty pair. -/
def convex_hull (shapes : List AABB) (indices : List ℕ) : EAABB × EAABB :=
  indices.foldl (fun ch i => grow_convex_hull ch (shape_aabb shapes i)) (none, none)

/-- The source's constant `NUM_BUCKETS = 6`. -/
def NUM_BUCKETS : ℕ := 6

/-- The bucket index of a relative centroid position:
`(relative * (NUM_BUCKETS as f32 - 0.01)) as usize`
(truncation of a non-negative value, i.e. the floor). -/
def bucket_num (relative : ℚ) : ℕ :=
  (Int.floor (relative * ((NUM_BUCKETS : ℚ) - 1 / 100))).toNat

/-- One iteration of the bucket-assignment loop: compute the shape's
relative centroid position on the split axis, pick the bucket, extend that
bucket's AABB and append the index to that bucket's index list. -/
def assign_step (shapes : List AABB) (ax : Axis) (cb_min extent : ℚ)
    (st : List Bucket × List (List ℕ)) (idx : ℕ) : List Bucket × List (List ℕ) :=
  let shape_box := shape_aabb shapes idx
  let c := shape_box.center.nth ax
  let relative := (c - cb_min) / extent
  let k := bucket_num relative
  (st.1.set k ((st.1.getD k Bucket.empty).add_aabb shape_box),
   st.2.set k (st.2.getD k [] ++ [idx]))

/-- The bucket-assignment loop of `BVHNode::build`, starting from
`NUM_BUCKETS` empty buckets and empty index lists. -/
def assign_buckets (shapes : List AABB) (ax : Axis) (cb_min extent : ℚ)
    (indices : List ℕ) : List Bucket × List (List ℕ) :=
  indices.foldl (assign_step shapes ax cb_min extent)
    (List.replicate NUM_BUCKETS Bucket.empty, List.replicate NUM_BUCKETS [])

/-- The left candidate of split point `i`: fold of buckets `0..=i`. -/
def candidate_l (buckets : List Bucket) (i : ℕ) : Bucket :=
  (buckets.take (i + 1)).foldl join_bucket Bucket.empty

/-- The right candidate of split point `i`: fold of buckets `i+1..`. -/
def candidate_r (buckets : List Bucket) (i : ℕ) : Bucket :=
  (buckets.drop (i + 1)).foldl join_bucket Bucket.empty

/-- The SAH cost of split point `i`:
`(leftCount * leftArea + rightCount * rightArea) / totalArea`. -/
def split_cost (buckets : List Bucket) (sa : ℚ) (i : ℕ) : ℚ :=
  let l := candidate_l buckets i
  let r := candidate_r buckets i
  ((l.size : ℚ) * EAABB.surface_area l.aabb +
   (r.size : ℚ) * EAABB.surface_area r.aabb) / sa

/-- The running state of the cost-minimisation loop: `min_bucket`,
`min_cost` (`none` models the initial `f32::INFINITY`) and the winning
child AABBs. -/
structure SplitState where
  min_bucket : ℕ
  min_cost : Option ℚ
  child_l_aabb : EAABB
  child_r_aabb : EAABB
  deriving DecidableEq

/-- One iteration of the cost-minimisation loop: strict less-than against
the running minimum (everything beats the initial infinity). -/
def select_step (buckets : List Bucket) (sa : ℚ) (st : SplitState) (i : ℕ) : SplitState :=
  let cost := split_cost buckets sa i
  let better := match st.min_cost with
    | none => true
    | some m => decide (cost < m)
  if better then
    ⟨i, some cost, (candidate_l buckets i).aabb, (candidate_r buckets i).aabb⟩
  else st

/-- The cost-minimisation loop of `BVHNode::build` over the
`NUM_BUCKETS - 1` candidate split points. -/
def select_split (buckets : List Bucket) (sa : ℚ) : SplitState :=
  (List.range (NUM_BUCKETS - 1)).foldl (select_step buckets sa) ⟨0, none, none, none⟩

/-- The data produced by the splitting phase of `BVHNode::build`: the two
stored child AABBs and the two concatenated child index lists. -/
structure SplitResult where
  child_l_aabb : EAABB
  child_l_indices : List ℕ
  child_r_aabb : EAABB
  child_r_indices : List ℕ

/-- The splitting phase of `BVHNode::build` (reached when there are more
than five indices and the centroid extent is at least `EPSILON`): assign
buckets along the largest centroid axis, pick the minimum-cost split point,
and concatenate the bucket index lists on each side. -/
def build_split (shapes : List AABB) (indices : List ℕ) : SplitResult :=
  let ch := convex_hull shapes indices
  let ax := EAABB.largest_axis ch.2
  let sz := EAABB.size_on ch.2 ax
  let ba := assign_buckets shapes ax (EAABB.min_on ch.2 ax) sz indices
  let st := select_split ba.1 (EAABB.surface_area ch.1)
  ⟨st.child_l_aabb, (ba.2.take (st.min_bucket + 1)).flatten,
   st.child_r_aabb, (ba.2.drop (st.min_bucket + 1)).flatten⟩

/-- The node type of the BVH: a leaf owning shape indices, or an inner node
owning two child subtrees and each child's stored AABB. -/
inductive BVHNode where
  | leaf (shapes : List ℕ)
  | node (child_l_aabb : EAABB) (child_l : BVHNode) (child_r_aabb : EAABB) (child_r : BVHNode)
  deriving DecidableEq

/-- The source's `BVHNode::build` with an explicit recursion budget: `none` means the
budget was exhausted before the recursion reached leaves.  Each step
mirrors the source: accumulate the convex hull, return a leaf when there
are at most five indices or the centroid extent on the largest axis is
below `EPSILON`, otherwise split and recurse on both sides. -/
def buildF (shapes : List AABB) : ℕ → List ℕ → Option BVHNode
  | 0, _ => none
  | fuel + 1, indices =>
    if indices.length ≤ 5 then some (BVHNode.leaf indices)
    else
      let cb := (convex_hull shapes indices).2
      if EAABB.size_on cb (EAABB.largest_axis cb) < EPSILON then
        some (BVHNode.leaf indices)
      else
        let s := build_split shapes indices
        match buildF shapes fuel s.child_l_indices, buildF shapes fuel s.child_r_indices with
        | some l, some r => some (BVHNode.node s.child_l_aabb l s.child_r_aabb r)
        | _, _ => none

/-- The source's `BVHNode::build`: the recursion with budget `indices.length + 1`, which
always suffices (every recursive call strictly shrinks the index list). -/
def BVHNode.build (shapes : List AABB) (indices : List ℕ) : Option BVHNode :=
  buildF shapes (indices.length + 1) indices

/-- The `BVH` handle: only the root node. -/
structure BVH where
  root : BVHNode
  deriving DecidableEq

/-- The source's `BVH::build`: build from the identity index sequence `0..shapes.len()`. -/
def BVH.build (shapes : List AABB) : Option BVH :=
  (BVHNode.build shapes (List.range shapes.length)).map BVH.mk

/-- The source's `BVHNode::traverse_recursive`: depth-first descent collecting the leaf
indices of every child whose stored AABB the ray intersects. -/
def BVHNode.traverse_recursive (n : BVHNode) (ray : Ray) : List ℕ :=
  match n with
  | BVHNode.leaf shapes => shapes
  | BVHNode.node cla cl cra cr =>
    (if ray.intersects_eaabb cla then cl.traverse_recursive ray else []) ++
    (if ray.intersects_eaabb cra then cr.traverse_recursive ray else [])

/-- The source's `BVH::traverse`: the candidate indices from the recursive descent,
post-filtered by the exact per-shape AABB test.  (The source returns the
shape references `&shapes[i]`; we return the indices `i`.) -/
def BVH.traverse (bvh : BVH) (ray : Ray) (shapes : List AABB) : List ℕ :=
  (bvh.root.traverse_recursive ray).filter
    (fun i => ray.intersects_aabb (shape_aabb shapes i))

/-- All shape indices stored in the leaves of a tree, left to right. -/
def BVHNode.leaf_indices : BVHNode → List ℕ
  | BVHNode.leaf s => s
  | BVHNode.node _ l _ r => l.leaf_indices ++ r.leaf_indices

/-- The containment invariant: at every inner node, the stored left (resp.
right) AABB contains the bounding box of every shape indexed in the left
(resp. right) subtree's leaves. -/
def BVHNode.contains_inv (shapes : List AABB) : BVHNode → Prop
  | BVHNode.leaf _ => True
  | BVHNode.node cla cl cra cr =>
    (∀ i ∈ cl.leaf_indices, EAABB.contains_box cla (shape_aabb shapes i)) ∧
    (∀ i ∈ cr.leaf_indices, EAABB.contains_box cra (shape_aabb shapes i)) ∧
    cl.contains_inv shapes ∧ cr.contains_inv shapes

/-- Well-formed shape collections: every bounding box has `min ≤ max` on
every axis (the spec's §7 scopes the functional guarantees to well-formed
bounds). -/
def well_formed (shapes : List AABB) : Prop :=
  ∀ b ∈ shapes, ∀ ax, b.min.nth ax ≤ b.max.nth ax

/-- The relation `hi_ge u v`: upper bound `u` is at least upper bound `v` (`none` = `+∞`). -/
def hi_ge : Option ℚ → Option ℚ → Prop
  | none, _ => True
  | some _, none => False
  | some h', some h => h ≤ h'

/-- The relation `slab_stronger s t`: every parameter value admitted by state `t` is
admitted by state `s`. -/
def slab_stronger (s t : SlabState) : Prop :=
  (t.ok = true → s.ok = true) ∧ s.tlo ≤ t.tlo ∧ hi_ge s.thi t.thi

/-- A concrete unit box used by the witnesses. -/
def wbox : AABB := ⟨⟨-1, -1, -1⟩, ⟨1, 1, 1⟩⟩

/-- A concrete ray along the positive x-axis used by the witnesses. -/
def wray : Ray := ⟨⟨-5, 0, 0⟩, ⟨1, 0, 0⟩⟩

/-- A concrete box centered at `(q, 0, 0)` used by the witnesses. -/
def wboxAt (q : ℚ) : AABB := ⟨⟨q - 1, -1, -1⟩, ⟨q + 1, 1, 1⟩⟩

/-- Six concrete shapes spread along the x-axis used by the witnesses. -/
def wshapes : List AABB :=
  [wboxAt 0, wboxAt 10, wboxAt 20, wboxAt 30, wboxAt 40, wboxAt 50]

/-- Two concrete shapes used by the bucket-assignment witness. -/
def wshapes2 : List AABB := [wboxAt 0, wboxAt 10]

/-- Six concrete buckets used by the split-selection witness. -/
def wbuckets : List Bucket :=
  [⟨1, some (wboxAt 0)⟩, ⟨2, some (wboxAt 10)⟩, ⟨0, none⟩, ⟨1, some (wboxAt 30)⟩,
   ⟨1, some (wboxAt 40)⟩, ⟨1, some (wboxAt 50)⟩]

end Bvh

namespace Bvh

/-! ## Monotonicity of the slab test under box inclusion -/



theorem slab_axis_stronger (o d lo hi lo' hi' : ℚ) (s t : SlabState)
    (hst : slab_stronger s t) (hlo : lo' ≤ lo) (hhi : hi ≤ hi') (hwf : lo ≤ hi) :
    slab_stronger (slab_axis o d lo' hi' s) (slab_axis o d lo hi t) := by
  obtain ⟨hok, htlo, hthi⟩ := hst
  unfold slab_axis
  by_cases hd : d = 0
  · simp only [if_pos hd]
    refine ⟨?_, htlo, hthi⟩
    intro h
    simp only [Bool.and_eq_true, decide_eq_true_eq] at h ⊢
    exact ⟨hok h.1, le_trans hlo h.2.1, le_trans h.2.2 hhi⟩
  · simp only [if_neg hd]
    have hab : min ((lo' - o) / d) ((hi' - o) / d) ≤ min ((lo - o) / d) ((hi - o) / d) ∧
        max ((lo - o) / d) ((hi - o) / d) ≤ max ((lo' - o) / d) ((hi' - o) / d) := by
      rcases lt_or_gt_of_ne hd with hneg | hpos
      · have h12 : (hi - o) / d ≤ (lo - o) / d :=
          div_le_div_of_nonpos_of_le (le_of_lt hneg) (by linarith)
        have hlo2 : (lo - o) / d ≤ (lo' - o) / d :=
          div_le_div_of_nonpos_of_le (le_of_lt hneg) (by linarith)
        have hhi2 : (hi' - o) / d ≤ (hi - o) / d :=
          div_le_div_of_nonpos_of_le (le_of_lt hneg) (by linarith)
        constructor
        · rw [min_eq_right h12]
          exact le_trans (min_le_right _ _) hhi2
        · rw [max_eq_left h12]
          exact le_trans hlo2 (le_max_left _ _)
      · have h12 : (lo - o) / d ≤ (hi - o) / d :=
          (div_le_div_iff_of_pos_right hpos).mpr (by linarith)
        have hlo2 : (lo' - o) / d ≤ (lo - o) / d :=
          (div_le_div_iff_of_pos_right hpos).mpr (by linarith)
        have hhi2 : (hi - o) / d ≤ (hi' - o) / d :=
          (div_le_div_iff_of_pos_right hpos).mpr (by linarith)
        constructor
        · rw [min_eq_left h12]
          exact le_trans (min_le_left _ _) hlo2
        · rw [max_eq_right h12]
          exact le_trans hhi2 (le_max_right _ _)
    refine ⟨fun h => hok h, max_le_max htlo hab.1, ?_⟩
    cases hs : s.thi with
    | none =>
      cases ht : t.thi with
      | none => exact hab.2
      | some h => exact le_trans (min_le_right _ _) hab.2
    | some h' =>
      cases ht : t.thi with
      | none => rw [hs, ht] at hthi; exact absurd hthi (by simp [hi_ge])
      | some h =>
        rw [hs, ht] at hthi
        exact min_le_min hthi hab.2

theorem slab_feasible_mono (s t : SlabState) (h : slab_stronger s t)
    (hf : slab_feasible t = true) : slab_feasible s = true := by
  obtain ⟨hok, htlo, hthi⟩ := h
  unfold slab_feasible at hf ⊢
  simp only [Bool.and_eq_true] at hf ⊢
  refine ⟨hok hf.1, ?_⟩
  cases hs : s.thi with
  | none => rfl
  | some h' =>
    cases ht : t.thi with
    | none => rw [hs, ht] at hthi; exact absurd hthi (by simp [hi_ge])
    | some h =>
      rw [hs, ht] at hthi
      rw [ht] at hf
      simp only [decide_eq_true_eq] at hf ⊢
      exact le_trans htlo (le_trans hf.2 hthi)

theorem intersects_mono (r : Ray) (b big : AABB)
    (hwf : ∀ ax, b.min.nth ax ≤ b.max.nth ax)
    (hc : ∀ ax, big.min.nth ax ≤ b.min.nth ax ∧ b.max.nth ax ≤ big.max.nth ax)
    (hhit : r.intersects_aabb b = true) : r.intersects_aabb big = true := by
  have hwx := hwf Axis.X
  have hwy := hwf Axis.Y
  have hwz := hwf Axis.Z
  have hcx := hc Axis.X
  have hcy := hc Axis.Y
  have hcz := hc Axis.Z
  simp only [Point3.nth] at hwx hwy hwz hcx hcy hcz
  unfold Ray.intersects_aabb at hhit ⊢
  have h0 : slab_stronger ⟨0, none, true⟩ ⟨0, none, true⟩ :=
    ⟨fun h => h, le_refl _, trivial⟩
  have h1 := slab_axis_stronger r.origin.x r.direction.x b.min.x b.max.x big.min.x big.max.x
    _ _ h0 hcx.1 hcx.2 hwx
  have h2 := slab_axis_stronger r.origin.y r.direction.y b.min.y b.max.y big.min.y big.max.y
    _ _ h1 hcy.1 hcy.2 hwy
  have h3 := slab_axis_stronger r.origin.z r.direction.z b.min.z b.max.z big.min.z big.max.z
    _ _ h2 hcz.1 hcz.2 hwz
  exact slab_feasible_mono _ _ h3 hhit

theorem intersects_eaabb_of_contains (r : Ray) (e : EAABB) (b : AABB)
    (hwf : ∀ ax, b.min.nth ax ≤ b.max.nth ax)
    (hc : EAABB.contains_box e b) (hhit : r.intersects_aabb b = true) :
    r.intersects_eaabb e = true := by
  cases e with
  | none => exact absurd hc (by simp [EAABB.contains_box])
  | some big => exact intersects_mono r b big hwf hc hhit

end Bvh

namespace Bvh

/-! ## The convex-hull accumulation: bounds and attainment -/

theorem nth_pmin (p q : Point3) (ax : Axis) :
    (p.pmin q).nth ax = min (p.nth ax) (q.nth ax) := by
  cases ax <;> rfl

theorem nth_pmax (p q : Point3) (ax : Axis) :
    (p.pmax q).nth ax = max (p.nth ax) (q.nth ax) := by
  cases ax <;> rfl

/-- The centroid fold only ever grows the box: it stays `some` and its
bounds expand. -/
theorem hull_fold_expand (shapes : List AABB) :
    ∀ (indices : List ℕ) (init : EAABB × EAABB) (b0 : AABB), init.2 = some b0 →
    ∃ cb, (indices.foldl (fun ch i => grow_convex_hull ch (shape_aabb shapes i)) init).2 = some cb ∧
      ∀ ax, cb.min.nth ax ≤ b0.min.nth ax ∧ b0.max.nth ax ≤ cb.max.nth ax := by
  intro indices
  induction indices with
  | nil =>
    intro init b0 h
    exact ⟨b0, h, fun ax => ⟨le_refl _, le_refl _⟩⟩
  | cons j tl ih =>
    intro init b0 h
    simp only [List.foldl_cons]
    have h' : (grow_convex_hull init (shape_aabb shapes j)).2
        = some (b0.grow (shape_aabb shapes j).center) := by
      simp [grow_convex_hull, EAABB.grow, h]
    obtain ⟨cb, hcb, hbound⟩ := ih (grow_convex_hull init (shape_aabb shapes j)) _ h'
    refine ⟨cb, hcb, fun ax => ⟨?_, ?_⟩⟩
    · exact le_trans ((hbound ax).1) (by simp [AABB.grow, nth_pmin])
    · exact le_trans (by simp [AABB.grow, nth_pmax]) ((hbound ax).2)

/-- The centroid fold bounds every member centroid. -/
theorem hull_fold_bounds (shapes : List AABB) :
    ∀ (indices : List ℕ) (init : EAABB × EAABB) (cb : AABB),
    (indices.foldl (fun ch i => grow_convex_hull ch (shape_aabb shapes i)) init).2 = some cb →
    ∀ i ∈ indices, ∀ ax,
      cb.min.nth ax ≤ (shape_aabb shapes i).center.nth ax ∧
      (shape_aabb shapes i).center.nth ax ≤ cb.max.nth ax := by
  intro indices
  induction indices with
  | nil => intro init cb h i hi; exact absurd hi (List.not_mem_nil i)
  | cons j tl ih =>
    intro init cb h i hi
    simp only [List.foldl_cons] at h
    rcases List.mem_cons.mp hi with rfl | hitl
    · -- the head: the grown accumulator bounds its centroid, and the rest
      -- of the fold only expands
      have hsome : ∃ b1, (grow_convex_hull init (shape_aabb shapes i)).2 = some b1 ∧
          ∀ ax, b1.min.nth ax ≤ (shape_aabb shapes i).center.nth ax ∧
            (shape_aabb shapes i).center.nth ax ≤ b1.max.nth ax := by
        cases h0 : init.2 with
        | none =>
          refine ⟨⟨(shape_aabb shapes i).center, (shape_aabb shapes i).center⟩, ?_, ?_⟩
          · simp [grow_convex_hull, EAABB.grow, h0]
          · intro ax; exact ⟨le_refl _, le_refl _⟩
        | some b0 =>
          refine ⟨b0.grow (shape_aabb shapes i).center, ?_, ?_⟩
          · simp [grow_convex_hull, EAABB.grow, h0]
          · intro ax
            constructor
            · simp [AABB.grow, nth_pmin]
            · simp [AABB.grow, nth_pmax]
      obtain ⟨b1, hb1, hbound1⟩ := hsome
      obtain ⟨cb', hcb', hexp⟩ := hull_fold_expand shapes tl _ _ hb1
      rw [h] at hcb'
      injection hcb' with hcbeq
      subst hcbeq
      intro ax
      exact ⟨le_trans ((hexp ax).1) ((hbound1 ax).1),
             le_trans ((hbound1 ax).2) ((hexp ax).2)⟩
    · exact ih _ cb h i hitl

/-- The maximum of the centroid fold is attained by a member (or inherited
from the initial accumulator). -/
theorem hull_fold_attain_max (shapes : List AABB) :
    ∀ (indices : List ℕ) (init : EAABB × EAABB) (cb : AABB) (ax : Axis),
    (indices.foldl (fun ch i => grow_convex_hull ch (shape_aabb shapes i)) init).2 = some cb →
    (∃ i ∈ indices, (shape_aabb shapes i).center.nth ax = cb.max.nth ax) ∨
    (∃ b0, init.2 = some b0 ∧ cb.max.nth ax = b0.max.nth ax) := by
  intro indices
  induction indices with
  | nil =>
    intro init cb ax h
    exact Or.inr ⟨cb, h, rfl⟩
  | cons j tl ih =>
    intro init cb ax h
    simp only [List.foldl_cons] at h
    rcases ih _ cb ax h with htl | ⟨b1, hb1, heq⟩
    · obtain ⟨i, hi, hieq⟩ := htl
      exact Or.inl ⟨i, List.mem_cons_of_mem j hi, hieq⟩
    · cases h0 : init.2 with
      | none =>
        have : b1 = ⟨(shape_aabb shapes j).center, (shape_aabb shapes j).center⟩ := by
          rw [show (grow_convex_hull init (shape_aabb shapes j)).2
              = EAABB.grow init.2 (shape_aabb shapes j).center from rfl, h0] at hb1
          simpa [EAABB.grow] using hb1.symm
        subst this
        exact Or.inl ⟨j, List.mem_cons_self j tl, heq.symm⟩
      | some b0 =>
        have : b1 = b0.grow (shape_aabb shapes j).center := by
          rw [show (grow_convex_hull init (shape_aabb shapes j)).2
              = EAABB.grow init.2 (shape_aabb shapes j).center from rfl, h0] at hb1
          simpa [EAABB.grow] using hb1.symm
        subst this
        have hmax : (b0.grow (shape_aabb shapes j).center).max.nth ax
            = max (b0.max.nth ax) ((shape_aabb shapes j).center.nth ax) := by
          simp [AABB.grow, nth_pmax]
        rw [hmax] at heq
        rcases max_choice (b0.max.nth ax) ((shape_aabb shapes j).center.nth ax) with hch | hch
        · exact Or.inr ⟨b0, rfl, by rw [heq, hch]⟩
        · exact Or.inl ⟨j, List.mem_cons_self j tl, by rw [heq, hch]⟩

end Bvh

namespace Bvh

/-! ## Bucket indices stay in range -/

theorem bucket_num_lt (relative : ℚ) (h0 : 0 ≤ relative) (h1 : relative ≤ 1) :
    bucket_num relative < NUM_BUCKETS := by
  unfold bucket_num
  have h6 : ((NUM_BUCKETS : ℕ) : ℚ) = 6 := by norm_num [NUM_BUCKETS]
  rw [h6]
  have hx : relative * ((6 : ℚ) - 1 / 100) < 6 := by
    have := mul_le_of_le_one_left (show (0:ℚ) ≤ (6 : ℚ) - 1 / 100 by norm_num) h1
    linarith
  have hfl : Int.floor (relative * ((6 : ℚ) - 1 / 100)) < (6 : ℤ) :=
    Int.floor_lt.mpr (by exact_mod_cast hx)
  have hfn : (0 : ℤ) ≤ Int.floor (relative * ((6 : ℚ) - 1 / 100)) :=
    Int.floor_nonneg.mpr (by positivity)
  have hnb : NUM_BUCKETS = 6 := rfl
  rw [hnb]
  omega

theorem bucket_num_zero : bucket_num 0 = 0 := by
  norm_num [bucket_num]

theorem bucket_num_one : bucket_num 1 = NUM_BUCKETS - 1 := by
  unfold bucket_num
  have h6 : ((NUM_BUCKETS : ℕ) : ℚ) = 6 := by norm_num [NUM_BUCKETS]
  rw [h6]
  have h : Int.floor ((1 : ℚ) * ((6 : ℚ) - 1 / 100)) = (5 : ℤ) := by
    rw [show (1 : ℚ) * ((6 : ℚ) - 1 / 100) = 599 / 100 by norm_num]
    rw [Int.floor_eq_iff]
    constructor <;> norm_num
  rw [h]
  rfl

theorem relative_bounds (cbmin cbmax c : ℚ) (hlo : cbmin ≤ c) (hhi : c ≤ cbmax)
    (heps : EPSILON ≤ cbmax - cbmin) :
    0 ≤ (c - cbmin) / (cbmax - cbmin) ∧ (c - cbmin) / (cbmax - cbmin) ≤ 1 := by
  have hpos : (0 : ℚ) < cbmax - cbmin := by
    have : (0 : ℚ) < EPSILON := by norm_num [EPSILON]
    linarith
  constructor
  · exact div_nonneg (by linarith) (le_of_lt hpos)
  · exact (div_le_one hpos).mpr (by linarith)

/-! ## The bucket-assignment fold -/

theorem getD_set (l : List α) (k0 k : ℕ) (a d : α) :
    (l.set k0 a).getD k d = if k0 = k ∧ k0 < l.length then a else l.getD k d := by
  simp only [List.getD_eq_getElem?_getD, List.getElem?_set]
  by_cases h1 : k0 = k
  · subst h1
    by_cases h2 : k0 < l.length
    · simp [h2]
    · simp [h2, List.getElem?_eq_none (le_of_not_lt h2)]
  · simp [h1]

theorem assign_fold_lengths (shapes : List AABB) (ax : Axis) (cb_min extent : ℚ) :
    ∀ (indices : List ℕ) (st : List Bucket × List (List ℕ)),
    (indices.foldl (assign_step shapes ax cb_min extent) st).1.length = st.1.length ∧
    (indices.foldl (assign_step shapes ax cb_min extent) st).2.length = st.2.length := by
  intro indices
  induction indices with
  | nil => intro st; exact ⟨rfl, rfl⟩
  | cons j tl ih =>
    intro st
    simp only [List.foldl_cons]
    have := ih (assign_step shapes ax cb_min extent st j)
    simpa [assign_step, List.length_set] using this

theorem assign_fold_persist (shapes : List AABB) (ax : Axis) (cb_min extent : ℚ) :
    ∀ (indices : List ℕ) (st : List Bucket × List (List ℕ)) (k : ℕ) (i : ℕ),
    i ∈ st.2.getD k [] →
    i ∈ (indices.foldl (assign_step shapes ax cb_min extent) st).2.getD k [] := by
  intro indices
  induction indices with
  | nil => intro st k i h; exact h
  | cons j tl ih =>
    intro st k i h
    simp only [List.foldl_cons]
    apply ih
    show i ∈ (st.2.set _ (st.2.getD _ [] ++ [j])).getD k []
    rw [getD_set]
    split
    · next hcond =>
      rw [hcond.1]
      exact List.mem_append_left _ h
    · exact h

theorem assign_fold_mem (shapes : List AABB) (ax : Axis) (cb_min extent : ℚ) :
    ∀ (indices : List ℕ) (st : List Bucket × List (List ℕ)) (i : ℕ),
    i ∈ indices →
    bucket_num (((shape_aabb shapes i).center.nth ax - cb_min) / extent) < st.2.length →
    i ∈ (indices.foldl (assign_step shapes ax cb_min extent) st).2.getD
        (bucket_num (((shape_aabb shapes i).center.nth ax - cb_min) / extent)) [] := by
  intro indices
  induction indices with
  | nil => intro st i h; exact absurd h (List.not_mem_nil i)
  | cons j tl ih =>
    intro st i hmem hk
    simp only [List.foldl_cons]
    rcases List.mem_cons.mp hmem with rfl | hitl
    · apply assign_fold_persist
      show i ∈ (st.2.set _ (st.2.getD _ [] ++ [i])).getD _ []
      rw [getD_set]
      rw [if_pos ⟨rfl, hk⟩]
      exact List.mem_append_right _ (List.mem_singleton.mpr rfl)
    · have hlen : (assign_step shapes ax cb_min extent st j).2.length = st.2.length := by
        simp [assign_step, List.length_set]
      exact ih _ i hitl (by rw [hlen]; exact hk)

theorem flatten_set_append (l : List (List ℕ)) (k : ℕ) (x : ℕ) (hk : k < l.length) :
    ((l.set k (l.getD k [] ++ [x])).flatten).Perm (l.flatten ++ [x]) := by
  induction l generalizing k with
  | nil => simp at hk
  | cons hd tl ih =>
    cases k with
    | zero =>
      simp only [List.set_cons_zero, List.getD_cons_zero, List.flatten_cons]
      rw [List.append_assoc, List.append_assoc]
      exact List.perm_append_comm.append_left hd
    | succ k' =>
      simp only [List.set_cons_succ, List.getD_cons_succ, List.flatten_cons]
      have hk' : k' < tl.length := by simpa using hk
      rw [List.append_assoc]
      exact (ih k' hk').append_left hd

theorem assign_fold_flatten_perm (shapes : List AABB) (ax : Axis) (cb_min extent : ℚ) :
    ∀ (indices : List ℕ) (st : List Bucket × List (List ℕ)),
    (∀ j ∈ indices,
      bucket_num (((shape_aabb shapes j).center.nth ax - cb_min) / extent) < st.2.length) →
    ((indices.foldl (assign_step shapes ax cb_min extent) st).2.flatten).Perm
      (st.2.flatten ++ indices) := by
  intro indices
  induction indices with
  | nil => intro st h; simp
  | cons j tl ih =>
    intro st h
    simp only [List.foldl_cons]
    have hk := h j (List.mem_cons_self j tl)
    have hstep : ((assign_step shapes ax cb_min extent st j).2.flatten).Perm
        (st.2.flatten ++ [j]) := by
      show ((st.2.set _ (st.2.getD _ [] ++ [j])).flatten).Perm _
      exact flatten_set_append st.2 _ j hk
    have htl : (∀ i ∈ tl,
        bucket_num (((shape_aabb shapes i).center.nth ax - cb_min) / extent)
          < (assign_step shapes ax cb_min extent st j).2.length) := by
      intro i hi
      have hlen : (assign_step shapes ax cb_min extent st j).2.length = st.2.length := by
        simp [assign_step, List.length_set]
      rw [hlen]
      exact h i (List.mem_cons_of_mem j hi)
    have h1 := ih (assign_step shapes ax cb_min extent st j) htl
    have h2 := hstep.append_right tl
    have h3 : (st.2.flatten ++ [j]) ++ tl = st.2.flatten ++ (j :: tl) := by simp
    exact h3 ▸ h1.trans h2

end Bvh

namespace Bvh

/-! ## Containment through joins and bucket folds -/

theorem contains_box_join_box_self (e : EAABB) (b : AABB) :
    EAABB.contains_box (EAABB.join_box e b) b := by
  cases e with
  | none =>
    intro ax
    exact ⟨le_refl _, le_refl _⟩
  | some a =>
    intro ax
    constructor
    · rw [show (a.join b).min = a.min.pmin b.min from rfl, nth_pmin]
      exact min_le_right _ _
    · rw [show (a.join b).max = a.max.pmax b.max from rfl, nth_pmax]
      exact le_max_right _ _

theorem contains_box_join_box_left (e : EAABB) (b b' : AABB)
    (h : EAABB.contains_box e b) : EAABB.contains_box (EAABB.join_box e b') b := by
  cases e with
  | none => exact absurd h (by simp [EAABB.contains_box])
  | some a =>
    intro ax
    constructor
    · rw [show (a.join b').min = a.min.pmin b'.min from rfl, nth_pmin]
      exact le_trans (min_le_left _ _) ((h ax).1)
    · rw [show (a.join b').max = a.max.pmax b'.max from rfl, nth_pmax]
      exact le_trans ((h ax).2) (le_max_left _ _)

theorem contains_box_join_left (e e' : EAABB) (b : AABB)
    (h : EAABB.contains_box e b) : EAABB.contains_box (EAABB.join e e') b := by
  cases e with
  | none => exact absurd h (by simp [EAABB.contains_box])
  | some a =>
    cases e' with
    | none => exact h
    | some a' =>
      intro ax
      constructor
      · rw [show (a.join a').min = a.min.pmin a'.min from rfl, nth_pmin]
        exact le_trans (min_le_left _ _) ((h ax).1)
      · rw [show (a.join a').max = a.max.pmax a'.max from rfl, nth_pmax]
        exact le_trans ((h ax).2) (le_max_left _ _)

theorem contains_box_join_right (e e' : EAABB) (b : AABB)
    (h : EAABB.contains_box e b) : EAABB.contains_box (EAABB.join e' e) b := by
  cases e with
  | none => exact absurd h (by simp [EAABB.contains_box])
  | some a =>
    cases e' with
    | none => exact h
    | some a' =>
      intro ax
      constructor
      · rw [show (a'.join a).min = a'.min.pmin a.min from rfl, nth_pmin]
        exact le_trans (min_le_right _ _) ((h ax).1)
      · rw [show (a'.join a).max = a'.max.pmax a.max from rfl, nth_pmax]
        exact le_trans ((h ax).2) (le_max_right _ _)

/-- A bucket fold's AABB contains everything contained in the initial
accumulator. -/
theorem fold_join_contains_init (box : AABB) :
    ∀ (bs : List Bucket) (init : Bucket), EAABB.contains_box init.aabb box →
    EAABB.contains_box ((bs.foldl join_bucket init).aabb) box := by
  intro bs
  induction bs with
  | nil => intro init h; exact h
  | cons hd tl ih =>
    intro init h
    simp only [List.foldl_cons]
    exact ih _ (contains_box_join_left _ _ _ h)

/-- A bucket fold's AABB contains everything contained in any member. -/
theorem fold_join_contains (box : AABB) :
    ∀ (bs : List Bucket) (init : Bucket) (b0 : Bucket), b0 ∈ bs →
    EAABB.contains_box b0.aabb box →
    EAABB.contains_box ((bs.foldl join_bucket init).aabb) box := by
  intro bs
  induction bs with
  | nil => intro init b0 h; exact absurd h (List.not_mem_nil b0)
  | cons hd tl ih =>
    intro init b0 hmem h
    simp only [List.foldl_cons]
    rcases List.mem_cons.mp hmem with rfl | htl
    · exact fold_join_contains_init box tl _ (contains_box_join_right _ _ _ h)
    · exact ih _ b0 htl h

/-- Along the bucket-assignment fold, every index in a bucket's list is
contained in that bucket's AABB. -/
theorem assign_fold_contains (shapes : List AABB) (ax : Axis) (cb_min extent : ℚ) :
    ∀ (indices : List ℕ) (st : List Bucket × List (List ℕ)),
    st.1.length = st.2.length →
    (∀ k i, i ∈ st.2.getD k [] →
      EAABB.contains_box ((st.1.getD k Bucket.empty).aabb) (shape_aabb shapes i)) →
    ∀ k i, i ∈ (indices.foldl (assign_step shapes ax cb_min extent) st).2.getD k [] →
      EAABB.contains_box
        (((indices.foldl (assign_step shapes ax cb_min extent) st).1.getD k Bucket.empty).aabb)
        (shape_aabb shapes i) := by
  intro indices
  induction indices with
  | nil => intro st hlen hinv k i h; exact hinv k i h
  | cons j tl ih =>
    intro st hlen hinv
    simp only [List.foldl_cons]
    apply ih
    · simp [assign_step, List.length_set, hlen]
    · intro k i h
      set k0 := bucket_num (((shape_aabb shapes j).center.nth ax - cb_min) / extent) with hk0
      show EAABB.contains_box
        (((st.1.set k0 ((st.1.getD k0 Bucket.empty).add_aabb (shape_aabb shapes j))).getD
          k Bucket.empty).aabb) (shape_aabb shapes i)
      have hmem : i ∈ (st.2.set k0 (st.2.getD k0 [] ++ [j])).getD k [] := h
      rw [getD_set] at hmem
      rw [getD_set]
      by_cases hc : k0 = k ∧ k0 < st.1.length
      · rw [if_pos hc]
        have hc2 : k0 = k ∧ k0 < st.2.length := ⟨hc.1, by rw [← hlen]; exact hc.2⟩
        rw [if_pos hc2] at hmem
        rcases List.mem_append.mp hmem with hold | hnew
        · exact contains_box_join_box_left _ _ _ (hinv k0 i hold)
        · have : i = j := by simpa using hnew
          subst this
          exact contains_box_join_box_self _ _
      · rw [if_neg hc]
        have hc2 : ¬(k0 = k ∧ k0 < st.2.length) := by
          intro hcon
          exact hc ⟨hcon.1, by rw [hlen]; exact hcon.2⟩
        rw [if_neg hc2] at hmem
        exact hinv k i hmem

end Bvh

namespace Bvh

/-! ## The cost-minimisation fold picks the first minimum -/

theorem select_fold_spec (buckets : List Bucket) (sa : ℚ) :
    ∀ (m : ℕ) (st : SplitState), 1 ≤ m →
    (List.range m).foldl (select_step buckets sa) ⟨0, none, none, none⟩ = st →
    st.min_bucket < m ∧
    st.min_cost = some (split_cost buckets sa st.min_bucket) ∧
    st.child_l_aabb = (candidate_l buckets st.min_bucket).aabb ∧
    st.child_r_aabb = (candidate_r buckets st.min_bucket).aabb ∧
    (∀ j, j < m → split_cost buckets sa st.min_bucket ≤ split_cost buckets sa j) ∧
    (∀ j, j < st.min_bucket → split_cost buckets sa st.min_bucket < split_cost buckets sa j) := by
  intro m
  induction m with
  | zero => intro st h; omega
  | succ m ih =>
    intro st hm hfold
    by_cases hm0 : m = 0
    · subst hm0
      have : st = ⟨0, some (split_cost buckets sa 0),
          (candidate_l buckets 0).aabb, (candidate_r buckets 0).aabb⟩ := by
        rw [← hfold]
        rfl
      subst this
      refine ⟨by dsimp only; omega, rfl, rfl, rfl, ?_, ?_⟩
      · intro j hj
        interval_cases j
        exact le_refl _
      · intro j hj
        dsimp only at hj
        omega
    · have hm1 : 1 ≤ m := by omega
      rw [List.range_succ, List.foldl_append, List.foldl_cons, List.foldl_nil] at hfold
      set st0 := (List.range m).foldl (select_step buckets sa) ⟨0, none, none, none⟩ with hst0
      obtain ⟨hb, hmc, hcl, hcr, hle, hlt⟩ := ih st0 hm1 rfl
      by_cases hless : split_cost buckets sa m < split_cost buckets sa st0.min_bucket
      · have hstep : select_step buckets sa st0 m = ⟨m, some (split_cost buckets sa m),
            (candidate_l buckets m).aabb, (candidate_r buckets m).aabb⟩ := by
          unfold select_step
          rw [hmc]
          simp [hless]
        rw [hstep] at hfold
        subst hfold
        refine ⟨by dsimp only; omega, rfl, rfl, rfl, ?_, ?_⟩
        · intro j hj
          rcases Nat.lt_succ_iff_lt_or_eq.mp hj with hj' | rfl
          · exact le_trans (le_of_lt hless) (hle j hj')
          · exact le_refl _
        · intro j hj
          exact lt_of_lt_of_le hless (hle j hj)
      · have hstep : select_step buckets sa st0 m = st0 := by
          unfold select_step
          rw [hmc]
          simp [hless]
        rw [hstep] at hfold
        subst hfold
        refine ⟨by omega, hmc, hcl, hcr, ?_, hlt⟩
        intro j hj
        rcases Nat.lt_succ_iff_lt_or_eq.mp hj with hj' | rfl
        · exact hle j hj'
        · exact le_of_not_lt hless

/-- What `select_split` returns: the first index attaining the minimal SAH
cost among the `NUM_BUCKETS - 1` candidates, together with that candidate's
fold AABBs. -/
theorem select_split_spec (buckets : List Bucket) (sa : ℚ) (st : SplitState)
    (h : select_split buckets sa = st) :
    st.min_bucket < NUM_BUCKETS - 1 ∧
    st.min_cost = some (split_cost buckets sa st.min_bucket) ∧
    st.child_l_aabb = (candidate_l buckets st.min_bucket).aabb ∧
    st.child_r_aabb = (candidate_r buckets st.min_bucket).aabb ∧
    (∀ j, j < NUM_BUCKETS - 1 → split_cost buckets sa st.min_bucket ≤ split_cost buckets sa j) ∧
    (∀ j, j < st.min_bucket → split_cost buckets sa st.min_bucket < split_cost buckets sa j) := by
  have h5 : NUM_BUCKETS - 1 = 5 := rfl
  rw [h5]
  exact select_fold_spec buckets sa 5 st (by omega) h

end Bvh

namespace Bvh

/-- The minimum of the centroid fold is attained by a member (or inherited
from the initial accumulator). -/
theorem hull_fold_attain_min (shapes : List AABB) :
    ∀ (indices : List ℕ) (init : EAABB × EAABB) (cb : AABB) (ax : Axis),
    (indices.foldl (fun ch i => grow_convex_hull ch (shape_aabb shapes i)) init).2 = some cb →
    (∃ i ∈ indices, (shape_aabb shapes i).center.nth ax = cb.min.nth ax) ∨
    (∃ b0, init.2 = some b0 ∧ cb.min.nth ax = b0.min.nth ax) := by
  intro indices
  induction indices with
  | nil =>
    intro init cb ax h
    exact Or.inr ⟨cb, h, rfl⟩
  | cons j tl ih =>
    intro init cb ax h
    simp only [List.foldl_cons] at h
    rcases ih _ cb ax h with htl | ⟨b1, hb1, heq⟩
    · obtain ⟨i, hi, hieq⟩ := htl
      exact Or.inl ⟨i, List.mem_cons_of_mem j hi, hieq⟩
    · cases h0 : init.2 with
      | none =>
        have : b1 = ⟨(shape_aabb shapes j).center, (shape_aabb shapes j).center⟩ := by
          rw [show (grow_convex_hull init (shape_aabb shapes j)).2
              = EAABB.grow init.2 (shape_aabb shapes j).center from rfl, h0] at hb1
          simpa [EAABB.grow] using hb1.symm
        subst this
        exact Or.inl ⟨j, List.mem_cons_self j tl, heq.symm⟩
      | some b0 =>
        have : b1 = b0.grow (shape_aabb shapes j).center := by
          rw [show (grow_convex_hull init (shape_aabb shapes j)).2
              = EAABB.grow init.2 (shape_aabb shapes j).center from rfl, h0] at hb1
          simpa [EAABB.grow] using hb1.symm
        subst this
        have hmin : (b0.grow (shape_aabb shapes j).center).min.nth ax
            = min (b0.min.nth ax) ((shape_aabb shapes j).center.nth ax) := by
          simp [AABB.grow, nth_pmin]
        rw [hmin] at heq
        rcases min_choice (b0.min.nth ax) ((shape_aabb shapes j).center.nth ax) with hch | hch
        · exact Or.inr ⟨b0, rfl, by rw [heq, hch]⟩
        · exact Or.inl ⟨j, List.mem_cons_self j tl, by rw [heq, hch]⟩

/-- Everything the splitting phase guarantees: the two child index lists
partition the input, each side's stored AABB contains its members' boxes,
and (for a nonempty input) both sides are nonempty. -/
theorem build_split_spec (shapes : List AABB) (indices : List ℕ) (cb : AABB)
    (hcb : (convex_hull shapes indices).2 = some cb)
    (heps : EPSILON ≤ cb.max.nth cb.largest_axis - cb.min.nth cb.largest_axis) :
    ((build_split shapes indices).child_l_indices ++
      (build_split shapes indices).child_r_indices).Perm indices ∧
    (∀ i ∈ (build_split shapes indices).child_l_indices,
      EAABB.contains_box (build_split shapes indices).child_l_aabb (shape_aabb shapes i)) ∧
    (∀ i ∈ (build_split shapes indices).child_r_indices,
      EAABB.contains_box (build_split shapes indices).child_r_aabb (shape_aabb shapes i)) ∧
    (indices ≠ [] →
      (build_split shapes indices).child_l_indices ≠ [] ∧
      (build_split shapes indices).child_r_indices ≠ []) := by
  set ax := cb.largest_axis with hax
  set extent := cb.max.nth ax - cb.min.nth ax with hextent
  set cbm := cb.min.nth ax with hcbm
  set ba := assign_buckets shapes ax cbm extent indices with hba
  set sa := EAABB.surface_area (convex_hull shapes indices).1 with hsa
  set st := select_split ba.1 sa with hst
  have hsplit : build_split shapes indices =
      ⟨st.child_l_aabb, (ba.2.take (st.min_bucket + 1)).flatten,
       st.child_r_aabb, (ba.2.drop (st.min_bucket + 1)).flatten⟩ := by
    simp only [build_split]
    rw [hcb]
    rfl
  have hextpos : (0 : ℚ) < extent := by
    have : (0 : ℚ) < EPSILON := by norm_num [EPSILON]
    linarith
  have hlen1 : ba.1.length = NUM_BUCKETS := by
    rw [hba]
    unfold assign_buckets
    rw [(assign_fold_lengths shapes ax cbm extent indices _).1]
    exact List.length_replicate _ _
  have hlen2 : ba.2.length = NUM_BUCKETS := by
    rw [hba]
    unfold assign_buckets
    rw [(assign_fold_lengths shapes ax cbm extent indices _).2]
    exact List.length_replicate _ _
  have hrel : ∀ i ∈ indices,
      0 ≤ ((shape_aabb shapes i).center.nth ax - cbm) / extent ∧
      ((shape_aabb shapes i).center.nth ax - cbm) / extent ≤ 1 := by
    intro i hi
    have hb := hull_fold_bounds shapes indices (none, none) cb hcb i hi ax
    exact relative_bounds cbm (cb.max.nth ax) _ hb.1 hb.2 heps
  have hk : ∀ i ∈ indices,
      bucket_num (((shape_aabb shapes i).center.nth ax - cbm) / extent) < NUM_BUCKETS := by
    intro i hi
    exact bucket_num_lt _ (hrel i hi).1 (hrel i hi).2
  have hperm : (ba.2.flatten).Perm indices := by
    have h0 := assign_fold_flatten_perm shapes ax cbm extent indices
      (List.replicate NUM_BUCKETS Bucket.empty, List.replicate NUM_BUCKETS [])
      (fun j hj => by rw [List.length_replicate]; exact hk j hj)
    have hnil : (List.replicate NUM_BUCKETS ([] : List ℕ)).flatten = [] := by simp
    rw [hnil] at h0
    rw [hba]
    unfold assign_buckets
    simpa using h0
  have hcont : ∀ k i, i ∈ ba.2.getD k [] →
      EAABB.contains_box ((ba.1.getD k Bucket.empty).aabb) (shape_aabb shapes i) := by
    rw [hba]
    unfold assign_buckets
    apply assign_fold_contains
    · simp
    · intro k i h
      exfalso
      rw [List.getD_eq_getElem?_getD, List.getElem?_replicate] at h
      revert h
      split <;> simp
  have hmem : ∀ i ∈ indices,
      i ∈ ba.2.getD (bucket_num (((shape_aabb shapes i).center.nth ax - cbm) / extent)) [] := by
    intro i hi
    rw [hba]
    unfold assign_buckets
    apply assign_fold_mem
    · exact hi
    · rw [List.length_replicate]
      exact hk i hi
  obtain ⟨hb5, hmc, hcl, hcr, hle, hltm⟩ := select_split_spec ba.1 sa st hst.symm
  have hb4 : st.min_bucket < 5 := by
    have : NUM_BUCKETS - 1 = 5 := rfl
    rw [this] at hb5
    exact hb5
  rw [hsplit]
  refine ⟨?_, ?_, ?_, ?_⟩
  · -- partition
    show ((ba.2.take (st.min_bucket + 1)).flatten ++ (ba.2.drop (st.min_bucket + 1)).flatten).Perm
      indices
    rw [← List.flatten_append, List.take_append_drop]
    exact hperm
  · -- left containment
    intro i hi
    show EAABB.contains_box st.child_l_aabb (shape_aabb shapes i)
    rw [hcl]
    obtain ⟨s, hs, his⟩ := List.mem_flatten.mp hi
    obtain ⟨k, hks⟩ := List.mem_iff_getElem?.mp hs
    rw [List.getElem?_take] at hks
    by_cases hklt : k < st.min_bucket + 1
    · rw [if_pos hklt] at hks
      have hk6 : k < ba.2.length := by
        by_contra hcon
        rw [List.getElem?_eq_none (le_of_not_lt hcon)] at hks
        exact Option.noConfusion hks
      have hsD : ba.2.getD k [] = s := by
        rw [List.getD_eq_getElem?_getD, hks]
        rfl
      have hc := hcont k i (hsD ▸ his)
      have hk1 : k < ba.1.length := by rw [hlen1]; rw [hlen2] at hk6; exact hk6
      have hmemb : ba.1.getD k Bucket.empty ∈ ba.1.take (st.min_bucket + 1) := by
        apply List.mem_iff_getElem?.mpr
        refine ⟨k, ?_⟩
        rw [List.getElem?_take, if_pos hklt, List.getD_eq_getElem?_getD,
          List.getElem?_eq_getElem hk1]
        rfl
      exact fold_join_contains (shape_aabb shapes i) (ba.1.take (st.min_bucket + 1))
        Bucket.empty _ hmemb hc
    · rw [if_neg hklt] at hks
      exact absurd hks (by simp)
  · -- right containment
    intro i hi
    show EAABB.contains_box st.child_r_aabb (shape_aabb shapes i)
    rw [hcr]
    obtain ⟨s, hs, his⟩ := List.mem_flatten.mp hi
    obtain ⟨k, hks⟩ := List.mem_iff_getElem?.mp hs
    rw [List.getElem?_drop] at hks
    have hk6 : st.min_bucket + 1 + k < ba.2.length := by
      by_contra hcon
      rw [List.getElem?_eq_none (le_of_not_lt hcon)] at hks
      exact Option.noConfusion hks
    have hsD : ba.2.getD (st.min_bucket + 1 + k) [] = s := by
      rw [List.getD_eq_getElem?_getD, hks]
      rfl
    have hc := hcont _ i (hsD ▸ his)
    have hk1 : st.min_bucket + 1 + k < ba.1.length := by
      rw [hlen1]; rw [hlen2] at hk6; exact hk6
    have hmemb : ba.1.getD (st.min_bucket + 1 + k) Bucket.empty ∈
        ba.1.drop (st.min_bucket + 1) := by
      apply List.mem_iff_getElem?.mpr
      refine ⟨k, ?_⟩
      rw [List.getElem?_drop, List.getD_eq_getElem?_getD, List.getElem?_eq_getElem hk1]
      rfl
    exact fold_join_contains (shape_aabb shapes i) (ba.1.drop (st.min_bucket + 1))
      Bucket.empty _ hmemb hc
  · -- both children nonempty
    intro hne
    constructor
    · -- the shape attaining the centroid minimum lands in bucket 0
      have hatt := hull_fold_attain_min shapes indices (none, none) cb ax hcb
      rcases hatt with ⟨i0, hi0, hi0eq⟩ | ⟨b0, hb0, _⟩
      · have hbn : bucket_num (((shape_aabb shapes i0).center.nth ax - cbm) / extent) = 0 := by
          rw [hi0eq, hcbm, sub_self, zero_div]
          exact bucket_num_zero
        have hin := hmem i0 hi0
        rw [hbn] at hin
        apply List.ne_nil_of_mem (a := i0)
        apply List.mem_flatten.mpr
        refine ⟨ba.2.getD 0 [], ?_, hin⟩
        apply List.mem_iff_getElem?.mpr
        refine ⟨0, ?_⟩
        have h06 : 0 < ba.2.length := by rw [hlen2]; norm_num [NUM_BUCKETS]
        rw [List.getElem?_take, if_pos (Nat.succ_pos _), List.getD_eq_getElem?_getD,
          List.getElem?_eq_getElem h06]
        rfl
      · exact absurd hb0 (by simp)
    · -- the shape attaining the centroid maximum lands in bucket 5
      have hatt := hull_fold_attain_max shapes indices (none, none) cb ax hcb
      rcases hatt with ⟨i5, hi5, hi5eq⟩ | ⟨b0, hb0, _⟩
      · have hbn : bucket_num (((shape_aabb shapes i5).center.nth ax - cbm) / extent) = 5 := by
          rw [hi5eq, ← hextent, div_self (ne_of_gt hextpos)]
          exact bucket_num_one
        have hin := hmem i5 hi5
        rw [hbn] at hin
        apply List.ne_nil_of_mem (a := i5)
        apply List.mem_flatten.mpr
        refine ⟨ba.2.getD 5 [], ?_, hin⟩
        apply List.mem_iff_getElem?.mpr
        refine ⟨4 - st.min_bucket, ?_⟩
        have h56 : 5 < ba.2.length := by rw [hlen2]; norm_num [NUM_BUCKETS]
        rw [List.getElem?_drop,
          show st.min_bucket + 1 + (4 - st.min_bucket) = 5 by omega,
          List.getD_eq_getElem?_getD, List.getElem?_eq_getElem h56]
        rfl
      · exact absurd hb0 (by simp)

end Bvh

namespace Bvh

/-! ## Invariants of the recursive build -/

theorem convex_hull_snd_some (shapes : List AABB) (indices : List ℕ) (h : indices ≠ []) :
    ∃ cb, (convex_hull shapes indices).2 = some cb := by
  cases indices with
  | nil => exact absurd rfl h
  | cons j tl =>
    unfold convex_hull
    simp only [List.foldl_cons]
    have h' : (grow_convex_hull (none, none) (shape_aabb shapes j)).2
        = some ⟨(shape_aabb shapes j).center, (shape_aabb shapes j).center⟩ := by
      simp [grow_convex_hull, EAABB.grow]
    obtain ⟨cb, hcb, _⟩ := hull_fold_expand shapes tl _ _ h'
    exact ⟨cb, hcb⟩

/-- Every tree the recursion produces is a permutation-preserving partition
of its input indices and satisfies the containment invariant. -/
theorem buildF_inv (shapes : List AABB) :
    ∀ (fuel : ℕ) (indices : List ℕ) (t : BVHNode),
    buildF shapes fuel indices = some t →
    (t.leaf_indices).Perm indices ∧ t.contains_inv shapes := by
  intro fuel
  induction fuel with
  | zero => intro indices t h; exact absurd h (by simp [buildF])
  | succ fuel ih =>
    intro indices t h
    simp only [buildF] at h
    by_cases h5 : indices.length ≤ 5
    · rw [if_pos h5] at h
      injection h with h
      subst h
      exact ⟨List.Perm.refl _, trivial⟩
    · rw [if_neg h5] at h
      have hne : indices ≠ [] := by
        intro hcon
        rw [hcon] at h5
        exact h5 (by simp)
      obtain ⟨cb, hcb⟩ := convex_hull_snd_some shapes indices hne
      by_cases heps : EAABB.size_on (convex_hull shapes indices).2
          (EAABB.largest_axis (convex_hull shapes indices).2) < EPSILON
      · rw [if_pos heps] at h
        injection h with h
        subst h
        exact ⟨List.Perm.refl _, trivial⟩
      · rw [if_neg heps] at h
        have heps' : EPSILON ≤ cb.max.nth cb.largest_axis - cb.min.nth cb.largest_axis := by
          rw [hcb] at heps
          exact le_of_not_lt heps
        obtain ⟨hperm, hcontl, hcontr, _⟩ := build_split_spec shapes indices cb hcb heps'
        cases hl : buildF shapes fuel (build_split shapes indices).child_l_indices with
        | none => rw [hl] at h; exact absurd h (by simp)
        | some l =>
          cases hr : buildF shapes fuel (build_split shapes indices).child_r_indices with
          | none => rw [hl, hr] at h; exact absurd h (by simp)
          | some r =>
            rw [hl, hr] at h
            injection h with h
            subst h
            obtain ⟨hpl, hil⟩ := ih _ l hl
            obtain ⟨hpr, hir⟩ := ih _ r hr
            constructor
            · exact (hpl.append hpr).trans hperm
            · refine ⟨?_, ?_, hil, hir⟩
              · intro i hi
                exact hcontl i (hpl.mem_iff.mp hi)
              · intro i hi
                exact hcontr i (hpr.mem_iff.mp hi)

/-- With a budget exceeding the number of indices, the recursion always
completes: every recursive call strictly shrinks the index list. -/
theorem buildF_total (shapes : List AABB) :
    ∀ (fuel : ℕ) (indices : List ℕ), indices.length < fuel →
    ∃ t, buildF shapes fuel indices = some t := by
  intro fuel
  induction fuel with
  | zero => intro indices h; omega
  | succ fuel ih =>
    intro indices hlen
    by_cases h5 : indices.length ≤ 5
    · exact ⟨BVHNode.leaf indices, by simp only [buildF]; rw [if_pos h5]⟩
    · have hne : indices ≠ [] := by
        intro hcon
        rw [hcon] at h5
        exact h5 (by simp)
      obtain ⟨cb, hcb⟩ := convex_hull_snd_some shapes indices hne
      by_cases heps : EAABB.size_on (convex_hull shapes indices).2
          (EAABB.largest_axis (convex_hull shapes indices).2) < EPSILON
      · exact ⟨BVHNode.leaf indices, by simp only [buildF]; rw [if_neg h5, if_pos heps]⟩
      · have heps' : EPSILON ≤ cb.max.nth cb.largest_axis - cb.min.nth cb.largest_axis := by
          rw [hcb] at heps
          exact le_of_not_lt heps
        obtain ⟨hperm, _, _, hnon⟩ := build_split_spec shapes indices cb hcb heps'
        obtain ⟨hlne, hrne⟩ := hnon hne
        have hsum : (build_split shapes indices).child_l_indices.length +
            (build_split shapes indices).child_r_indices.length = indices.length := by
          have := hperm.length_eq
          simpa using this
        have hlpos : 0 < (build_split shapes indices).child_l_indices.length :=
          List.length_pos.mpr hlne
        have hrpos : 0 < (build_split shapes indices).child_r_indices.length :=
          List.length_pos.mpr hrne
        obtain ⟨l, hl⟩ := ih (build_split shapes indices).child_l_indices (by omega)
        obtain ⟨r, hr⟩ := ih (build_split shapes indices).child_r_indices (by omega)
        refine ⟨BVHNode.node (build_split shapes indices).child_l_aabb l
          (build_split shapes indices).child_r_aabb r, ?_⟩
        simp only [buildF]
        rw [if_neg h5, if_neg heps, hl, hr]

end Bvh

namespace Bvh

/-! ## Traversal: candidates and exactness -/

/-- The candidate list is a sublist of the leaf indices (pruning only ever
drops leaves). -/
theorem traverse_sublist (t : BVHNode) (ray : Ray) :
    (t.traverse_recursive ray).Sublist t.leaf_indices := by
  induction t with
  | leaf s => exact List.Sublist.refl _
  | node cla cl cra cr ihl ihr =>
    show ((if ray.intersects_eaabb cla then cl.traverse_recursive ray else []) ++
      (if ray.intersects_eaabb cra then cr.traverse_recursive ray else [])).Sublist
      (cl.leaf_indices ++ cr.leaf_indices)
    apply List.Sublist.append
    · split
      · exact ihl
      · exact List.nil_sublist _
    · split
      · exact ihr
      · exact List.nil_sublist _

/-- Pruning never drops a shape whose own (well-formed) box the ray hits:
the containment invariant forces every ancestor test to pass. -/
theorem traverse_cover (shapes : List AABB) (ray : Ray) :
    ∀ (t : BVHNode), t.contains_inv shapes → ∀ i, i ∈ t.leaf_indices →
    (∀ ax, (shape_aabb shapes i).min.nth ax ≤ (shape_aabb shapes i).max.nth ax) →
    ray.intersects_aabb (shape_aabb shapes i) = true →
    i ∈ t.traverse_recursive ray := by
  intro t
  induction t with
  | leaf s => intro _ i hi _ _; exact hi
  | node cla cl cra cr ihl ihr =>
    intro hinv i hi hwf hhit
    obtain ⟨hconl, hconr, hil, hir⟩ := hinv
    show i ∈ (if ray.intersects_eaabb cla then cl.traverse_recursive ray else []) ++
      (if ray.intersects_eaabb cra then cr.traverse_recursive ray else [])
    rcases List.mem_append.mp hi with hml | hmr
    · apply List.mem_append_left
      rw [if_pos (intersects_eaabb_of_contains ray cla _ hwf (hconl i hml) hhit)]
      exact ihl hil i hml hwf hhit
    · apply List.mem_append_right
      rw [if_pos (intersects_eaabb_of_contains ray cra _ hwf (hconr i hmr) hhit)]
      exact ihr hir i hmr hwf hhit

theorem count_filter_eq (l : List ℕ) (p : ℕ → Bool) (i : ℕ) :
    (l.filter p).count i = if p i then l.count i else 0 := by
  by_cases hp : p i = true
  · rw [if_pos hp]
    exact List.count_filter hp
  · rw [if_neg hp]
    apply List.count_eq_zero_of_not_mem
    intro hmem
    exact hp (List.mem_filter.mp hmem).2

theorem count_range_eq (n i : ℕ) : (List.range n).count i = if i < n then 1 else 0 := by
  by_cases h : i < n
  · rw [if_pos h]
    have h1 : 0 < (List.range n).count i :=
      List.count_pos_iff.mpr (List.mem_range.mpr h)
    have h2 : (List.range n).count i ≤ 1 :=
      List.nodup_iff_count_le_one.mp (List.nodup_range n) i
    omega
  · rw [if_neg h]
    exact List.count_eq_zero_of_not_mem (fun hc => h (List.mem_range.mp hc))

end Bvh

namespace Bvh

/-! ## Claim theorems -/

/-- C1: for every ray and every (well-formed, per spec §7) shape collection,
the final result of `traverse(ray, shapes)` on the tree produced by
`build(shapes)` is exactly the set of shapes whose own bounding box the ray
intersects — each such shape exactly once, no others — regardless of the
tree's internal structure. -/
theorem traverse_exact_matches_aabb_filter (shapes : List AABB) (bvh : BVH) (ray : Ray)
    (i : ℕ) (hw : well_formed shapes) (hb : BVH.build shapes = some bvh) :
    (BVH.traverse bvh ray shapes).count i =
      if i < shapes.length ∧ ray.intersects_aabb (shape_aabb shapes i) = true then 1 else 0 := by
  unfold BVH.build at hb
  cases hroot : BVHNode.build shapes (List.range shapes.length) with
  | none => rw [hroot] at hb; exact absurd hb (by simp)
  | some root =>
    rw [hroot] at hb
    have hbvh : bvh = ⟨root⟩ := by simpa using hb.symm
    subst hbvh
    obtain ⟨hperm, hinv⟩ := buildF_inv shapes _ _ root hroot
    have hsub := traverse_sublist root ray
    have hcle : (root.traverse_recursive ray).count i ≤ (List.range shapes.length).count i :=
      le_trans (hsub.count_le i) (le_of_eq (hperm.count_eq i))
    show ((root.traverse_recursive ray).filter
      (fun j => ray.intersects_aabb (shape_aabb shapes j))).count i = _
    simp only [count_filter_eq]
    by_cases hhit : ray.intersects_aabb (shape_aabb shapes i) = true
    · rw [if_pos hhit]
      by_cases hin : i < shapes.length
      · rw [if_pos ⟨hin, hhit⟩]
        have h1 : (root.traverse_recursive ray).count i ≤ 1 := by
          rw [count_range_eq, if_pos hin] at hcle
          exact hcle
        have hmem : i ∈ root.traverse_recursive ray := by
          apply traverse_cover shapes ray root hinv i
          · exact hperm.mem_iff.mpr (List.mem_range.mpr hin)
          · intro ax
            have hself : shape_aabb shapes i ∈ shapes := by
              unfold shape_aabb
              rw [List.getD_eq_getElem?_getD, List.getElem?_eq_getElem hin]
              exact List.getElem_mem _
            exact hw _ hself ax
          · exact hhit
        have h2 : 0 < (root.traverse_recursive ray).count i := List.count_pos_iff.mpr hmem
        omega
      · rw [if_neg (fun hcon => hin hcon.1)]
        rw [count_range_eq, if_neg hin] at hcle
        omega
    · rw [if_neg hhit, if_neg (fun hcon => hhit hcon.2)]



theorem traverse_exact_matches_aabb_filter_witness :
    (BVH.traverse ⟨BVHNode.leaf [0]⟩ wray [wbox]).count 0 =
      if 0 < ([wbox] : List AABB).length ∧
        wray.intersects_aabb (shape_aabb [wbox] 0) = true then 1 else 0 :=
  traverse_exact_matches_aabb_filter [wbox] ⟨BVHNode.leaf [0]⟩ wray 0
    (by unfold well_formed; decide) (by decide)

end Bvh

namespace Bvh

/-- C2: for every shape collection and every input index list, the multiset
of shape indices collected over all leaves of the tree returned by `build`
equals the input index list (no duplicates introduced, none missing). -/
theorem build_partitions_indices (shapes : List AABB) (indices : List ℕ) (t : BVHNode)
    (h : BVHNode.build shapes indices = some t) :
    (t.leaf_indices).Perm indices :=
  (buildF_inv shapes _ indices t h).1



theorem build_partitions_indices_witness :
    ((BVHNode.leaf [3, 1, 4]).leaf_indices).Perm [3, 1, 4] :=
  build_partitions_indices wshapes [3, 1, 4] (BVHNode.leaf [3, 1, 4]) (by decide)

/-- C3: in every tree returned by `build`, every inner node's stored
`child_l_aabb` contains the bounding box of every shape indexed in any leaf
of its left subtree, and symmetrically for `child_r_aabb`. -/
theorem build_containment_invariant (shapes : List AABB) (indices : List ℕ) (t : BVHNode)
    (h : BVHNode.build shapes indices = some t) :
    t.contains_inv shapes :=
  (buildF_inv shapes _ indices t h).2

theorem build_containment_invariant_witness :
    (BVHNode.leaf [2, 0]).contains_inv wshapes :=
  build_containment_invariant wshapes [2, 0] (BVHNode.leaf [2, 0]) (by decide)

/-- C4: `build` on an index list with at most five elements returns a single
leaf holding exactly that index list, unchanged and in order, regardless of
the shapes. -/
theorem build_small_input_leaf (shapes : List AABB) (indices : List ℕ)
    (h : indices.length ≤ 5) :
    BVHNode.build shapes indices = some (BVHNode.leaf indices) := by
  unfold BVHNode.build
  simp only [buildF]
  rw [if_pos h]

theorem build_small_input_leaf_witness :
    BVHNode.build wshapes [4, 2, 0] = some (BVHNode.leaf [4, 2, 0]) :=
  build_small_input_leaf wshapes [4, 2, 0] (by decide)

/-- C5: when the centroid extent on the split axis is at least `EPSILON`,
every shape's relative centroid position lies in `[0, 1]`, its bucket index
is below `NUM_BUCKETS` (so the bucket-array accesses are in bounds), and a
shape at the extreme maximum (`relative = 1`) maps to `NUM_BUCKETS - 1`. -/
theorem bucket_assignment_in_bounds (shapes : List AABB) (indices : List ℕ) (cb : AABB)
    (ax : Axis) (i : ℕ) (hcb : (convex_hull shapes indices).2 = some cb)
    (hi : i ∈ indices)
    (heps : EPSILON ≤ cb.max.nth ax - cb.min.nth ax) :
    0 ≤ ((shape_aabb shapes i).center.nth ax - cb.min.nth ax) /
      (cb.max.nth ax - cb.min.nth ax) ∧
    ((shape_aabb shapes i).center.nth ax - cb.min.nth ax) /
      (cb.max.nth ax - cb.min.nth ax) ≤ 1 ∧
    bucket_num (((shape_aabb shapes i).center.nth ax - cb.min.nth ax) /
      (cb.max.nth ax - cb.min.nth ax)) < NUM_BUCKETS ∧
    (((shape_aabb shapes i).center.nth ax - cb.min.nth ax) /
        (cb.max.nth ax - cb.min.nth ax) = 1 →
      bucket_num (((shape_aabb shapes i).center.nth ax - cb.min.nth ax) /
        (cb.max.nth ax - cb.min.nth ax)) = NUM_BUCKETS - 1) := by
  have hb := hull_fold_bounds shapes indices (none, none) cb hcb i hi ax
  have hr := relative_bounds (cb.min.nth ax) (cb.max.nth ax) _ hb.1 hb.2 heps
  refine ⟨hr.1, hr.2, bucket_num_lt _ hr.1 hr.2, ?_⟩
  intro h1
  rw [h1]
  exact bucket_num_one


theorem bucket_assignment_in_bounds_witness :
    0 ≤ ((shape_aabb wshapes2 1).center.nth Axis.X - (0 : ℚ)) / ((10 : ℚ) - 0) ∧
    ((shape_aabb wshapes2 1).center.nth Axis.X - (0 : ℚ)) / ((10 : ℚ) - 0) ≤ 1 ∧
    bucket_num (((shape_aabb wshapes2 1).center.nth Axis.X - (0 : ℚ)) / ((10 : ℚ) - 0))
      < NUM_BUCKETS ∧
    (((shape_aabb wshapes2 1).center.nth Axis.X - (0 : ℚ)) / ((10 : ℚ) - 0) = 1 →
      bucket_num (((shape_aabb wshapes2 1).center.nth Axis.X - (0 : ℚ)) / ((10 : ℚ) - 0))
        = NUM_BUCKETS - 1) :=
  bucket_assignment_in_bounds wshapes2 [0, 1] ⟨⟨0, 0, 0⟩, ⟨10, 0, 0⟩⟩
    Axis.X 1
    (by norm_num [convex_hull, grow_convex_hull, EAABB.grow, EAABB.join_box, shape_aabb,
      AABB.grow, AABB.center, wshapes2, wboxAt, Point3.pmin, Point3.pmax, min_def, max_def])
    (by decide) (by norm_num [EPSILON, Point3.nth])

/-- C6: the split point chosen by the cost-minimisation loop is the first
(lowest) candidate index attaining the minimal SAH cost — ties keep the
first minimum found, the comparison being strict less-than — and the stored
child AABBs are the left/right bucket-fold AABBs of that winning
candidate. -/
theorem split_selection_first_argmin (buckets : List Bucket) (sa : ℚ) (st : SplitState)
    (h : select_split buckets sa = st) :
    st.min_bucket < NUM_BUCKETS - 1 ∧
    st.child_l_aabb = (candidate_l buckets st.min_bucket).aabb ∧
    st.child_r_aabb = (candidate_r buckets st.min_bucket).aabb ∧
    (∀ j, j < NUM_BUCKETS - 1 → split_cost buckets sa st.min_bucket ≤ split_cost buckets sa j) ∧
    (∀ j, j < st.min_bucket → split_cost buckets sa st.min_bucket < split_cost buckets sa j) := by
  obtain ⟨h1, _, h3, h4, h5, h6⟩ := select_split_spec buckets sa st h
  exact ⟨h1, h3, h4, h5, h6⟩


theorem split_selection_first_argmin_witness :
    (select_split wbuckets 4).min_bucket < NUM_BUCKETS - 1 ∧
    (select_split wbuckets 4).child_l_aabb =
      (candidate_l wbuckets (select_split wbuckets 4).min_bucket).aabb ∧
    (select_split wbuckets 4).child_r_aabb =
      (candidate_r wbuckets (select_split wbuckets 4).min_bucket).aabb ∧
    (∀ j, j < NUM_BUCKETS - 1 →
      split_cost wbuckets 4 (select_split wbuckets 4).min_bucket ≤ split_cost wbuckets 4 j) ∧
    (∀ j, j < (select_split wbuckets 4).min_bucket →
      split_cost wbuckets 4 (select_split wbuckets 4).min_bucket < split_cost wbuckets 4 j) :=
  split_selection_first_argmin wbuckets 4 (select_split wbuckets 4) rfl

/-- C7: for every shape collection and finite index list, the build
recursion reaches leaves within a budget of `|indices| + 1` nested calls —
every recursive call strictly shrinks the index list — so `build` always
returns a tree (and the structurally recursive traversal of that finite
tree is a total function). -/
theorem build_terminates (shapes : List AABB) (indices : List ℕ) :
    ∃ t, BVHNode.build shapes indices = some t :=
  buildF_total shapes (indices.length + 1) indices (by omega)

/-- C8: `build` is deterministic — two builds from equal shape collections
produce identical trees. -/
theorem build_deterministic (shapes₁ shapes₂ : List AABB) (h : shapes₁ = shapes₂) :
    BVH.build shapes₁ = BVH.build shapes₂ := by
  rw [h]

theorem build_deterministic_witness :
    BVH.build wshapes = BVH.build wshapes :=
  build_deterministic wshapes wshapes rfl

/-- C9: building from an empty shape collection yields a single leaf with
zero indices, and traversing that tree returns an empty sequence for every
ray. -/
theorem build_empty_traverse_empty :
    BVH.build ([] : List AABB) = some ⟨BVHNode.leaf []⟩ ∧
    ∀ ray : Ray, BVH.traverse ⟨BVHNode.leaf []⟩ ray [] = [] := by
  constructor
  · rfl
  · intro ray
    rfl

/-- C10: every shape index stored in any leaf of a tree produced by
`BVH::build(shapes)` — and hence every candidate index the traversal can
produce — is strictly below `shapes.len()`, so the per-shape lookups are in
bounds. -/
theorem build_leaf_indices_in_bounds (shapes : List AABB) (bvh : BVH)
    (hb : BVH.build shapes = some bvh) :
    (∀ i ∈ bvh.root.leaf_indices, i < shapes.length) ∧
    (∀ ray : Ray, ∀ i ∈ bvh.root.traverse_recursive ray, i < shapes.length) := by
  unfold BVH.build at hb
  cases hroot : BVHNode.build shapes (List.range shapes.length) with
  | none => rw [hroot] at hb; exact absurd hb (by simp)
  | some root =>
    rw [hroot] at hb
    have hbvh : bvh = ⟨root⟩ := by simpa using hb.symm
    subst hbvh
    have hperm := (buildF_inv shapes _ _ root hroot).1
    constructor
    · intro i hi
      exact List.mem_range.mp (hperm.mem_iff.mp hi)
    · intro ray i hi
      exact List.mem_range.mp (hperm.mem_iff.mp ((traverse_sublist root ray).subset hi))

theorem build_leaf_indices_in_bounds_witness :
    (∀ i ∈ (BVH.mk (BVHNode.leaf [0])).root.leaf_indices, i < ([wbox] : List AABB).length) ∧
    (∀ ray : Ray, ∀ i ∈ (BVH.mk (BVHNode.leaf [0])).root.traverse_recursive ray,
      i < ([wbox] : List AABB).length) :=
  build_leaf_indices_in_bounds [wbox] (BVH.mk (BVHNode.leaf [0])) (by decide)

end Bvh
